import Mathlib

/-!
Shallow embedding of the strategic scenario simulator
(`strategic_scenario_simulator.py`): the data model, the dependency
resolver (`_topological_sort`), the Monte Carlo and deterministic path
samplers, the effect cascader, the outcome classifier and scorer, and the
aggregator / recommender.  Floating point numbers are modelled as exact
rationals, `timedelta` durations as rationals (seconds), Python's shared
`random.random()` stream as a function `draws : Nat -> Rat` consumed at a
running index, and effect-generator callables as identifiers interpreted
by an environment function (Python compares callables by identity, which
the identifiers model).
-/

namespace S3

/-- Outcome classification of a simulated path (`OutcomeType`). -/
inductive OutcomeType where
  | success
  | partial_success
  | failure
  | catastrophic
deriving DecidableEq

/-- A single action in a plan (`Action`).  `side_effects` holds the
identifiers of the attached effect-generator callables. -/
structure Action where
  name : String
  description : String
  duration : ℚ
  cost : ℚ
  success_probability : ℚ
  dependencies : List String
  side_effects : List ℕ
deriving DecidableEq

/-- A cascading effect of an action (`SecondOrderEffect`). -/
structure SecondOrderEffect where
  source_action : String
  effect_description : String
  probability : ℚ
  impact_magnitude : ℚ
  affected_actions : List String
deriving DecidableEq

/-- One possible execution path (`SimulationPath`). -/
structure SimulationPath where
  path_id : String
  actions_taken : List Action
  outcome_type : OutcomeType
  total_cost : ℚ
  total_duration : ℚ
  probability : ℚ
  second_order_effects : List SecondOrderEffect
  risk_score : ℚ
deriving DecidableEq

/-- Results from simulating multiple scenarios (`ScenarioResult`). -/
structure ScenarioResult where
  scenario_name : String
  paths : List SimulationPath
  expected_value : ℚ
  risk_adjusted_value : ℚ
  success_rate : ℚ
  average_cost : ℚ
  average_duration : ℚ
  recommended_path : Option SimulationPath
deriving DecidableEq

/-- Interpretation of the effect-generator callables: given a generator
identifier and the three arguments the simulator passes, `none` models a
raised exception (caught and skipped), `some none` a falsy return value
(skipped), and `some (some e)` a produced effect. -/
abbrev GenEnv : Type := ℕ → Action → List Action → List Action → Option (Option SecondOrderEffect)

/-- Names of a list of actions (`[a.name for a in l]`). -/
def actionNames (l : List Action) : List String := l.map (fun a => a.name)

/-- Whether every dependency of `a` already names a sorted action
(the ready test inside `_topological_sort`, and the `dependencies_met`
test of the Monte Carlo sampler). -/
def isReadyA (sortedNames : List String) (a : Action) : Bool :=
  a.dependencies.all (fun d => sortedNames.contains d)

/-- Python's `for action in ready: remaining.remove(action)` when `ready`
aliases `remaining` (the deadlock branch of `_topological_sort`): the list
iterator walks an index while each removal shifts elements left, so every
other element is skipped and survives.  The loop needs at most `l.length`
iterations (the index grows while the list shrinks), so it is run with
that much fuel; the fuel-`0` branch is never reached from `topoAux`. -/
def eraseAlias : ℕ → ℕ → List Action → List Action
  | 0, _, l => l
  | fuel + 1, i, l =>
    if h : i < l.length then eraseAlias fuel (i + 1) (l.erase (l.get ⟨i, h⟩)) else l

lemma eraseAlias_length_le (fuel : ℕ) :
    ∀ (i : ℕ) (l : List Action), (eraseAlias fuel i l).length ≤ l.length := by
  induction fuel with
  | zero => intro i l; exact le_refl _
  | succ fuel ih =>
    intro i l
    rw [eraseAlias]
    split
    next h =>
      have hm : l.get ⟨i, h⟩ ∈ l := l.get_mem _ _
      have h1 := List.length_erase_of_mem hm
      have h2 := ih (i + 1) (l.erase (l.get ⟨i, h⟩))
      omega
    next h => exact le_refl _

lemma eraseAlias_length_lt (fuel i : ℕ) (l : List Action) (h : i < l.length) :
    (eraseAlias (fuel + 1) i l).length < l.length := by
  rw [eraseAlias]
  simp only [h, dite_true]
  have hm : l.get ⟨i, h⟩ ∈ l := l.get_mem _ _
  have h1 := List.length_erase_of_mem hm
  have h2 := eraseAlias_length_le fuel (i + 1) (l.erase (l.get ⟨i, h⟩))
  omega

lemma foldl_erase_cons_of_ne (xs : List Action) (x : Action) (l : List Action)
    (h : ∀ a ∈ xs, a ≠ x) :
    xs.foldl (fun r a => r.erase a) (x :: l) = x :: xs.foldl (fun r a => r.erase a) l := by
  induction xs generalizing l with
  | nil => rfl
  | cons y ys ih =>
    have hyx : ¬(x == y) = true := by
      simp only [beq_iff_eq]
      exact fun he => (h y (by simp)) he.symm
    rw [List.foldl_cons, List.foldl_cons, List.erase_cons_tail hyx]
    exact ih (l.erase y) (fun a ha => h a (by simp [ha]))

/-- Removing every element of `l.filter p` from `l` (by first-occurrence
removal, as Python's `list.remove`) leaves `l.filter (fun a => !p a)`. -/
lemma foldl_erase_filter (p : Action → Bool) (l : List Action) :
    (l.filter p).foldl (fun r a => r.erase a) l = l.filter (fun a => !p a) := by
  induction l with
  | nil => rfl
  | cons x l ih =>
    by_cases hp : p x = true
    · rw [List.filter_cons_of_pos hp]
      simp only [List.foldl_cons, List.erase_cons_head]
      rw [ih, List.filter_cons_of_neg (by simp [hp])]
    · have hp' : p x = false := by simpa using hp
      rw [List.filter_cons_of_neg (by simp [hp'])]
      rw [foldl_erase_cons_of_ne _ x l
        (fun a ha => by
          have := (List.mem_filter.mp ha).2
          intro he
          rw [he] at this
          simp [hp'] at this)]
      rw [ih, List.filter_cons_of_pos (by simp [hp'])]

/-- The loop of `_topological_sort`: peel ready actions; on a deadlock
(cycle or missing dependency) extend `sorted` by all of `remaining` and
run the aliased removal loop, which only removes every other element.
Each iteration strictly shrinks `remaining`, so `remaining.length` fuel
always suffices; the fuel-`0` branch is never reached
(`topoAux_fuel_sufficient`). -/
def topoAux : ℕ → List Action → List Action → List Action
  | 0, sorted, _ => sorted
  | fuel + 1, sorted, remaining =>
    if remaining = [] then sorted
    else
      let ready := remaining.filter (isReadyA (actionNames sorted))
      if ready = [] then
        topoAux fuel (sorted ++ remaining) (eraseAlias remaining.length 0 remaining)
      else
        topoAux fuel (sorted ++ ready) (ready.foldl (fun r a => r.erase a) remaining)

/-- `_topological_sort`: sort actions by dependencies. -/
def topologicalSort (actions : List Action) : List Action := topoAux actions.length [] actions

lemma topoAux_nil (fuel : ℕ) (sorted : List Action) : topoAux fuel sorted [] = sorted := by
  cases fuel with
  | zero => rfl
  | succ fuel => rw [topoAux, if_pos rfl]

/-- Any fuel of at least `remaining.length` computes the loop's true
result: the fuel parameter is an artefact of the embedding, not of the
modelled loop, which strictly shrinks `remaining` on every iteration. -/
lemma topoAux_fuel_sufficient (f1 : ℕ) :
    ∀ (f2 : ℕ) (sorted remaining : List Action), remaining.length ≤ f1 →
      remaining.length ≤ f2 → topoAux f1 sorted remaining = topoAux f2 sorted remaining := by
  induction f1 with
  | zero =>
    intro f2 sorted remaining h1 _
    have : remaining = [] := List.length_eq_zero.mp (Nat.le_zero.mp h1)
    subst this
    rw [topoAux_nil, topoAux_nil]
  | succ f1 ih =>
    intro f2 sorted remaining h1 h2
    by_cases hrem : remaining = []
    · subst hrem
      rw [topoAux_nil, topoAux_nil]
    · have hpos : 0 < remaining.length := List.length_pos.mpr hrem
      obtain ⟨g2, rfl⟩ : ∃ g2, f2 = g2 + 1 := by
        cases f2 with
        | zero => omega
        | succ g2 => exact ⟨g2, rfl⟩
      rw [topoAux, topoAux, if_neg hrem, if_neg hrem]
      by_cases hready : remaining.filter (isReadyA (actionNames sorted)) = []
      · rw [if_pos hready, if_pos hready]
        have hlt := eraseAlias_length_lt (remaining.length - 1) 0 remaining hpos
        have hlt' : (eraseAlias remaining.length 0 remaining).length < remaining.length := by
          have : remaining.length - 1 + 1 = remaining.length := by omega
          rw [this] at hlt
          exact hlt
        refine ih g2 _ _ (by omega) (by omega)
      · rw [if_neg hready, if_neg hready, foldl_erase_filter]
        have hsum := List.length_eq_length_filter_add
          (l := remaining) (isReadyA (actionNames sorted))
        have hposf : 0 < (remaining.filter (isReadyA (actionNames sorted))).length :=
          List.length_pos.mpr hready
        refine ih g2 _ _ (by omega) (by omega)

/-- Whether each action of `l` has all of its dependencies among `seen`
together with the names of the actions preceding it in `l`. -/
def depsRespectedAux (seen : List String) : List Action → Bool
  | [] => true
  | a :: rest => isReadyA seen a && depsRespectedAux (seen ++ [a.name]) rest

/-- Whether each action of `l` appears after actions carrying all the
names in its dependency list. -/
def depsRespected (l : List Action) : Bool := depsRespectedAux [] l

/-- The synthetic budget-pressure effect emitted for a high-cost action
(`_simulate_second_order_effects`, structural rule). -/
def synthBudgetEffect (action : Action) (executed_actions all_actions : List Action) :
    SecondOrderEffect :=
  { source_action := action.name
    effect_description := "High cost reduces available budget"
    probability := mkRat 8 10
    impact_magnitude := -(mkRat 3 10)
    affected_actions := actionNames (all_actions.filter (fun a => !(executed_actions.contains a))) }

/-- `_simulate_second_order_effects`: run the action's attached effect
generators (failures caught and skipped, falsy returns skipped), then the
structural high-cost rule. -/
def simulateSecondOrderEffects (env : GenEnv) (action : Action)
    (executed_actions all_actions : List Action) : List SecondOrderEffect :=
  let custom := action.side_effects.foldl (fun effects fid =>
    match env fid action executed_actions all_actions with
    | some (some e) => effects ++ [e]
    | _ => effects) []
  if action.cost > 10000 then
    custom ++ [synthBudgetEffect action executed_actions all_actions]
  else custom

/-- `_determine_outcome`: classify by completion ratio. -/
def determineOutcome (executed_actions all_actions : List Action) : OutcomeType :=
  let completion_rate : ℚ := (executed_actions.length : ℚ) / ((max all_actions.length 1 : ℕ) : ℚ)
  if completion_rate ≥ mkRat 9 10 then .success
  else if completion_rate ≥ mkRat 6 10 then .partial_success
  else if completion_rate ≥ mkRat 3 10 then .failure
  else .catastrophic

/-- `_calculate_path_probability`. -/
def calculatePathProbability (actions : List Action) : ℚ :=
  if actions = [] then 0
  else actions.foldl (fun probability a => probability * a.success_probability) 1

/-- `_calculate_risk_score`. -/
def calculateRiskScore (second_order_effects : List SecondOrderEffect) (total_cost : ℚ) : ℚ :=
  if second_order_effects = [] then 0
  else
    let risk := second_order_effects.foldl
      (fun r e => if e.impact_magnitude < 0 then r + |e.impact_magnitude| * e.probability else r) 0
    min (risk * (1 + total_cost / 100000)) 1

/-- State of the Monte Carlo sampling loop: the executed actions, the
accumulated cost and duration, the accumulated effects, and the next
index into the shared random stream. -/
structure McState where
  executed : List Action
  total_cost : ℚ
  total_duration : ℚ
  effects : List SecondOrderEffect
  k : ℕ
deriving DecidableEq

/-- One iteration of the Monte Carlo loop body of
`_run_monte_carlo_simulation`: skip when dependencies are unmet (no draw
consumed), otherwise draw, and on success execute the action and cascade
its effects. -/
def mcStep (env : GenEnv) (draws : ℕ → ℚ) (sorted_actions : List Action)
    (s : McState) (action : Action) : McState :=
  if isReadyA (actionNames s.executed) action then
    if draws s.k < action.success_probability then
      let executed := s.executed ++ [action]
      { executed := executed
        total_cost := s.total_cost + action.cost
        total_duration := s.total_duration + action.duration
        effects := s.effects ++ simulateSecondOrderEffects env action executed sorted_actions
        k := s.k + 1 }
    else { s with k := s.k + 1 }
  else s

/-- `_run_monte_carlo_simulation`: one Monte Carlo path (also returns the
next random-stream index). -/
def runMonteCarloSimulation (env : GenEnv) (draws : ℕ → ℚ) (actions : List Action)
    (simulation_id k : ℕ) : SimulationPath × ℕ :=
  let sorted_actions := topologicalSort actions
  let s := sorted_actions.foldl (mcStep env draws sorted_actions) ⟨[], 0, 0, [], k⟩
  (⟨"mc_" ++ toString simulation_id, s.executed,
    determineOutcome s.executed actions, s.total_cost, s.total_duration,
    calculatePathProbability s.executed, s.effects,
    calculateRiskScore s.effects s.total_cost⟩, s.k)

/-- State of the deterministic sampling loop. -/
structure DetState where
  executed : List Action
  total_cost : ℚ
  total_duration : ℚ
  k : ℕ
deriving DecidableEq

/-- One iteration of the loop body of `_create_deterministic_path`: a draw
is consumed for every action, and no dependency check is made. -/
def detStep (draws : ℕ → ℚ) (success_rate : ℚ) (s : DetState) (action : Action) : DetState :=
  if draws s.k < success_rate then
    { executed := s.executed ++ [action]
      total_cost := s.total_cost + action.cost
      total_duration := s.total_duration + action.duration
      k := s.k + 1 }
  else { s with k := s.k + 1 }

/-- `_create_deterministic_path`. -/
def createDeterministicPath (draws : ℕ → ℚ) (path_name : String) (actions : List Action)
    (success_rate : ℚ) (k : ℕ) : SimulationPath × ℕ :=
  let s := actions.foldl (detStep draws success_rate) ⟨[], 0, 0, k⟩
  (⟨path_name, s.executed, determineOutcome s.executed actions, s.total_cost, s.total_duration,
    success_rate ^ s.executed.length, [], 1 - success_rate⟩, s.k)

/-- `_explore_all_paths`: the three fixed deterministic scenarios. -/
def exploreAllPaths (draws : ℕ → ℚ) (actions : List Action) (k : ℕ) :
    List SimulationPath × ℕ :=
  let sorted_actions := topologicalSort actions
  let optimistic := createDeterministicPath draws "optimistic" sorted_actions 1 k
  let realistic := createDeterministicPath draws "realistic" sorted_actions (mkRat 8 10) optimistic.2
  let pessimistic := createDeterministicPath draws "pessimistic" sorted_actions (mkRat 5 10) realistic.2
  ([optimistic.1, realistic.1, pessimistic.1], pessimistic.2)

/-- `_calculate_path_value`: fixed payoff per outcome minus the path cost. -/
def calculatePathValue (path : SimulationPath) : ℚ :=
  let benefit : ℚ :=
    match path.outcome_type with
    | .success => 100000
    | .partial_success => 50000
    | .failure => -10000
    | .catastrophic => -50000
  benefit - path.total_cost

/-- The risk-adjustment factor `1 - risk_score * (1 - risk_tolerance)`. -/
def riskAdjustment (risk_tolerance : ℚ) (path : SimulationPath) : ℚ :=
  1 - path.risk_score * (1 - risk_tolerance)

/-- The score by which `_select_recommended_path` ranks paths. -/
def scoreOf (risk_tolerance : ℚ) (path : SimulationPath) : ℚ :=
  calculatePathValue path * path.probability * riskAdjustment risk_tolerance path

/-- Stable-descending insertion of a scored path (the behaviour of
Python's stable `list.sort(key, reverse=True)` on the scored pairs). -/
def scoredInsert (x : ℚ × SimulationPath) :
    List (ℚ × SimulationPath) → List (ℚ × SimulationPath)
  | [] => [x]
  | y :: ys => if y.1 > x.1 then y :: scoredInsert x ys else x :: y :: ys

/-- Stable descending sort by score, as Python's stable
`sort(key=..., reverse=True)`. -/
def stableSortDesc : List (ℚ × SimulationPath) → List (ℚ × SimulationPath)
  | [] => []
  | x :: xs => scoredInsert x (stableSortDesc xs)

/-- `_select_recommended_path`. -/
def selectRecommendedPath (risk_tolerance : ℚ) (paths : List SimulationPath) :
    Option SimulationPath :=
  if paths = [] then none
  else
    let scored_paths := paths.map (fun p => (scoreOf risk_tolerance p, p))
    match stableSortDesc scored_paths with
    | [] => none
    | sp :: _ => some sp.2

/-- `_analyze_simulation_results`. -/
def analyzeSimulationResults (risk_tolerance : ℚ) (scenario_name : String)
    (paths : List SimulationPath) : ScenarioResult :=
  if paths = [] then ⟨scenario_name, [], 0, 0, 0, 0, 0, none⟩
  else
    let success_paths := paths.filter (fun p =>
      p.outcome_type == OutcomeType.success || p.outcome_type == OutcomeType.partial_success)
    let success_rate : ℚ := (success_paths.length : ℚ) / (paths.length : ℚ)
    let average_cost := (paths.foldl (fun acc p => acc + p.total_cost) 0) / (paths.length : ℚ)
    let average_duration :=
      (paths.foldl (fun acc p => acc + p.total_duration) 0) / (paths.length : ℚ)
    let expected_value := paths.foldl (fun acc p => acc + calculatePathValue p * p.probability) 0
    let risk_adjusted_value := paths.foldl
      (fun acc p => acc + calculatePathValue p * p.probability * riskAdjustment risk_tolerance p) 0
    ⟨scenario_name, paths, expected_value, risk_adjusted_value, success_rate,
      average_cost, average_duration, selectRecommendedPath risk_tolerance paths⟩

/-- The Monte Carlo sampling loop of `simulate_scenario`: `count` runs
starting at simulation id `i`, threading the random-stream index. -/
def mcPathsList (env : GenEnv) (draws : ℕ → ℚ) (actions : List Action) :
    ℕ → ℕ → ℕ → List SimulationPath × ℕ
  | 0, _, k => ([], k)
  | n + 1, i, k =>
    let pk := runMonteCarloSimulation env draws actions i k
    let rest := mcPathsList env draws actions n (i + 1) pk.2
    (pk.1 :: rest.1, rest.2)

/-- `simulate_scenario`: run the sampler (Monte Carlo or deterministic)
and aggregate the paths.  `risk_tolerance` is the simulator configuration
value. -/
def simulateScenario (risk_tolerance : ℚ) (env : GenEnv) (draws : ℕ → ℚ)
    (scenario_name : String) (actions : List Action) (num_simulations : ℕ)
    (monte_carlo : Bool) : ScenarioResult :=
  let paths := if monte_carlo then (mcPathsList env draws actions num_simulations 0 0).1
               else (exploreAllPaths draws actions 0).1
  analyzeSimulationResults risk_tolerance scenario_name paths

/-! ### Resolver lemmas -/

lemma contains_iff_mem {α : Type} [BEq α] [LawfulBEq α] (l : List α) (x : α) :
    l.contains x = true ↔ x ∈ l := by simp

lemma isReadyA_iff (seen : List String) (a : Action) :
    isReadyA seen a = true ↔ ∀ d ∈ a.dependencies, d ∈ seen := by
  simp [isReadyA, List.all_eq_true]

lemma mem_actionNames (l : List Action) (s : String) :
    s ∈ actionNames l ↔ ∃ a ∈ l, a.name = s := by
  simp [actionNames]

/-- Every run of `topoAux` only ever appends to `sorted`. -/
lemma topoAux_extends (fuel : ℕ) :
    ∀ (sorted remaining : List Action), ∃ t, topoAux fuel sorted remaining = sorted ++ t := by
  induction fuel with
  | zero => intro sorted remaining; exact ⟨[], by simp [topoAux]⟩
  | succ fuel ih =>
    intro sorted remaining
    by_cases hrem : remaining = []
    · subst hrem
      exact ⟨[], by rw [topoAux_nil, List.append_nil]⟩
    · rw [topoAux, if_neg hrem]
      by_cases hready : remaining.filter (isReadyA (actionNames sorted)) = []
      · rw [if_pos hready]
        obtain ⟨t, ht⟩ := ih (sorted ++ remaining) (eraseAlias remaining.length 0 remaining)
        exact ⟨remaining ++ t, by rw [ht, List.append_assoc]⟩
      · rw [if_neg hready]
        obtain ⟨t, ht⟩ := ih (sorted ++ remaining.filter (isReadyA (actionNames sorted)))
          ((remaining.filter (isReadyA (actionNames sorted))).foldl
            (fun r a => r.erase a) remaining)
        exact ⟨remaining.filter (isReadyA (actionNames sorted)) ++ t,
          by rw [ht, List.append_assoc]⟩

lemma mem_eraseAlias {x : Action} (fuel : ℕ) :
    ∀ (i : ℕ) (l : List Action), x ∈ eraseAlias fuel i l → x ∈ l := by
  induction fuel with
  | zero => intro i l; exact id
  | succ fuel ih =>
    intro i l
    rw [eraseAlias]
    split
    next h => exact fun hx => List.mem_of_mem_erase (ih _ _ hx)
    next h => exact id

/-- Every element of the resolver's output is an input action. -/
lemma topoAux_mem {x : Action} (fuel : ℕ) :
    ∀ (sorted remaining : List Action),
      x ∈ topoAux fuel sorted remaining → x ∈ sorted ∨ x ∈ remaining := by
  induction fuel with
  | zero => intro sorted remaining hx; exact Or.inl hx
  | succ fuel ih =>
    intro sorted remaining
    by_cases hrem : remaining = []
    · subst hrem
      rw [topoAux_nil]
      exact Or.inl
    · rw [topoAux, if_neg hrem]
      by_cases hready : remaining.filter (isReadyA (actionNames sorted)) = []
      · rw [if_pos hready]
        intro hx
        rcases ih _ _ hx with h | h
        · rcases List.mem_append.mp h with h' | h'
          · exact Or.inl h'
          · exact Or.inr h'
        · exact Or.inr (mem_eraseAlias remaining.length 0 remaining h)
      · rw [if_neg hready]
        intro hx
        rcases ih _ _ hx with h | h
        · rcases List.mem_append.mp h with h' | h'
          · exact Or.inl h'
          · exact Or.inr ((remaining.filter_sublist).mem h')
        · rw [foldl_erase_filter] at h
          exact Or.inr ((remaining.filter_sublist).mem h)

lemma topologicalSort_mem {x : Action} (actions : List Action) :
    x ∈ topologicalSort actions → x ∈ actions := by
  intro hx
  rcases topoAux_mem actions.length [] actions hx with h | h
  · simp at h
  · exact h

lemma depsRespectedAux_cons (seen : List String) (a : Action) (rest : List Action) :
    depsRespectedAux seen (a :: rest) =
      (isReadyA seen a && depsRespectedAux (seen ++ [a.name]) rest) := rfl

lemma depsRespectedAux_mono (l : List Action) :
    ∀ seen1 seen2 : List String, (∀ s ∈ seen1, s ∈ seen2) →
    depsRespectedAux seen1 l = true → depsRespectedAux seen2 l = true := by
  induction l with
  | nil => intro _ _ _ _; rfl
  | cons a rest ih =>
    intro seen1 seen2 hsub h
    rw [depsRespectedAux_cons] at h ⊢
    rw [Bool.and_eq_true] at h ⊢
    obtain ⟨h1, h2⟩ := h
    constructor
    · rw [isReadyA_iff] at h1 ⊢
      exact fun d hd => hsub _ (h1 d hd)
    · refine ih _ _ (fun s hs => ?_) h2
      rcases List.mem_append.mp hs with h' | h'
      · exact List.mem_append.mpr (Or.inl (hsub _ h'))
      · exact List.mem_append.mpr (Or.inr h')

lemma depsRespectedAux_append (l1 : List Action) :
    ∀ (seen : List String) (l2 : List Action),
    depsRespectedAux seen (l1 ++ l2) =
      (depsRespectedAux seen l1 && depsRespectedAux (seen ++ actionNames l1) l2) := by
  induction l1 with
  | nil => intro seen l2; simp [depsRespectedAux, actionNames]
  | cons a rest ih =>
    intro seen l2
    rw [List.cons_append, depsRespectedAux_cons, depsRespectedAux_cons, ih]
    rw [Bool.and_assoc]
    have : seen ++ [a.name] ++ actionNames rest = seen ++ actionNames (a :: rest) := by
      simp [actionNames]
    rw [this]

lemma depsRespectedAux_of_all_ready (l : List Action) :
    ∀ seen : List String, (∀ a ∈ l, isReadyA seen a = true) →
    depsRespectedAux seen l = true := by
  induction l with
  | nil => intro _ _; rfl
  | cons a rest ih =>
    intro seen h
    rw [depsRespectedAux_cons, Bool.and_eq_true]
    refine ⟨h a (by simp), ?_⟩
    refine depsRespectedAux_mono rest seen _ (fun s hs => List.mem_append.mpr (Or.inl hs)) ?_
    exact ih seen (fun b hb => h b (by simp [hb]))

lemma exists_min_image_nat (f : Action → ℕ) (l : List Action) (h : l ≠ []) :
    ∃ a ∈ l, ∀ b ∈ l, f a ≤ f b := by
  induction l with
  | nil => exact absurd rfl h
  | cons x rest ih =>
    by_cases hr : rest = []
    · subst hr
      refine ⟨x, by simp, fun b hb => ?_⟩
      simp at hb
      rw [hb]
    · obtain ⟨a, ha, hmin⟩ := ih hr
      by_cases hc : f x ≤ f a
      · refine ⟨x, by simp, fun b hb => ?_⟩
        rcases List.mem_cons.mp hb with h' | h'
        · rw [h']
        · exact le_trans hc (hmin b h')
      · refine ⟨a, by simp [ha], fun b hb => ?_⟩
        rcases List.mem_cons.mp hb with h' | h'
        · rw [h']; exact le_of_not_le hc
        · exact hmin b h'

/-- Master lemma for the resolver on well-formed inputs: when every
dependency of a pending action is present among the sorted or pending
names and a rank function orders dependencies strictly below their
dependents, the deadlock branch is never taken, so the result respects
dependencies and is a permutation of `sorted ++ remaining`. -/
lemma topo_master (rank : String → ℕ) (fuel : ℕ) :
    ∀ (sorted remaining : List Action), remaining.length ≤ fuel →
    (∀ a ∈ remaining, ∀ d ∈ a.dependencies,
        d ∈ actionNames sorted ∨ d ∈ actionNames remaining) →
    (∀ a ∈ remaining, ∀ d ∈ a.dependencies, rank d < rank a.name) →
    (depsRespectedAux [] sorted = true →
        depsRespectedAux [] (topoAux fuel sorted remaining) = true)
      ∧ (topoAux fuel sorted remaining).Perm (sorted ++ remaining) := by
  induction fuel with
  | zero =>
    intro sorted remaining hlen _ _
    have : remaining = [] := List.length_eq_zero.mp (Nat.le_zero.mp hlen)
    subst this
    rw [topoAux_nil]
    exact ⟨fun h => h, by simp⟩
  | succ fuel ih =>
    intro sorted remaining hlen hpres hrank
    by_cases hrem : remaining = []
    · subst hrem
      rw [topoAux_nil]
      exact ⟨fun h => h, by simp⟩
    · by_cases hready : remaining.filter (isReadyA (actionNames sorted)) = []
      · exfalso
        obtain ⟨a, ha, hmin⟩ := exists_min_image_nat (fun b => rank b.name) remaining hrem
        have hra : isReadyA (actionNames sorted) a = true := by
          rw [isReadyA_iff]
          intro d hd
          by_contra hds
          rcases hpres a ha d hd with h' | h'
          · exact hds h'
          · obtain ⟨b, hb, hbn⟩ := (mem_actionNames remaining d).mp h'
            have h1 : rank d < rank a.name := hrank a ha d hd
            have h2 : rank a.name ≤ rank b.name := hmin b hb
            rw [hbn] at h2
            omega
        have hmem : a ∈ remaining.filter (isReadyA (actionNames sorted)) :=
          List.mem_filter.mpr ⟨ha, hra⟩
        rw [hready] at hmem
        simp at hmem
      · have hlen' :
            (remaining.filter (fun b => !isReadyA (actionNames sorted) b)).length ≤ fuel := by
          have hsum := List.length_eq_length_filter_add
            (l := remaining) (isReadyA (actionNames sorted))
          have hposf : 0 < (remaining.filter (isReadyA (actionNames sorted))).length :=
            List.length_pos.mpr hready
          omega
        have ihs := ih (sorted ++ remaining.filter (isReadyA (actionNames sorted)))
          (remaining.filter (fun b => !isReadyA (actionNames sorted) b)) hlen'
        have hpres' : ∀ a ∈ remaining.filter (fun b => !isReadyA (actionNames sorted) b),
            ∀ d ∈ a.dependencies,
            d ∈ actionNames (sorted ++ remaining.filter (isReadyA (actionNames sorted)))
              ∨ d ∈ actionNames (remaining.filter (fun b => !isReadyA (actionNames sorted) b)) := by
          intro a ha d hd
          have ham : a ∈ remaining := (remaining.filter_sublist).mem ha
          rcases hpres a ham d hd with h' | h'
          · refine Or.inl ?_
            rw [mem_actionNames] at h' ⊢
            obtain ⟨b, hb, hbn⟩ := h'
            exact ⟨b, List.mem_append.mpr (Or.inl hb), hbn⟩
          · rw [mem_actionNames] at h'
            obtain ⟨b, hb, hbn⟩ := h'
            by_cases hfb : isReadyA (actionNames sorted) b = true
            · refine Or.inl ?_
              rw [mem_actionNames]
              exact ⟨b, List.mem_append.mpr (Or.inr (List.mem_filter.mpr ⟨hb, hfb⟩)), hbn⟩
            · refine Or.inr ?_
              rw [mem_actionNames]
              exact ⟨b, List.mem_filter.mpr ⟨hb, by simp [hfb]⟩, hbn⟩
        have hrank' : ∀ a ∈ remaining.filter (fun b => !isReadyA (actionNames sorted) b),
            ∀ d ∈ a.dependencies, rank d < rank a.name :=
          fun a ha d hd => hrank a ((remaining.filter_sublist).mem ha) d hd
        obtain ⟨ihgood, ihperm⟩ := ihs hpres' hrank'
        constructor
        · intro hgood
          rw [topoAux, if_neg hrem, if_neg hready, foldl_erase_filter]
          apply ihgood
          rw [depsRespectedAux_append, Bool.and_eq_true]
          refine ⟨hgood, ?_⟩
          refine depsRespectedAux_of_all_ready _ _ (fun a ha => ?_)
          have := (List.mem_filter.mp ha).2
          rw [isReadyA_iff] at this ⊢
          intro d hd
          simp only [List.nil_append]
          exact this d hd
        · rw [topoAux, if_neg hrem, if_neg hready, foldl_erase_filter]
          refine ihperm.trans ?_
          rw [List.append_assoc]
          exact List.Perm.append_left sorted
            (List.filter_append_perm (isReadyA (actionNames sorted)) remaining)

/-- On a uniquely-named, dependency-complete, acyclic action set the
resolver returns a permutation of the input. -/
lemma topologicalSort_perm (actions : List Action)
    (hpres : ∀ a ∈ actions, ∀ d ∈ a.dependencies, d ∈ actionNames actions)
    (rank : String → ℕ)
    (hrank : ∀ a ∈ actions, ∀ d ∈ a.dependencies, rank d < rank a.name) :
    (topologicalSort actions).Perm actions := by
  have := (topo_master rank actions.length [] actions (le_refl _)
    (fun a ha d hd => Or.inr (hpres a ha d hd)) hrank).2
  simpa [topologicalSort] using this

/-! ### Monte Carlo loop lemmas -/

/-- Sum of the `cost` fields over a list of actions. -/
def sumCost (l : List Action) : ℚ := (l.map (fun a => a.cost)).sum

/-- Sum of the `duration` fields over a list of actions. -/
def sumDuration (l : List Action) : ℚ := (l.map (fun a => a.duration)).sum

lemma mcStep_ready_success (env : GenEnv) (draws : ℕ → ℚ) (sortedAll : List Action)
    (s : McState) (a : Action) (h1 : isReadyA (actionNames s.executed) a = true)
    (h2 : draws s.k < a.success_probability) :
    mcStep env draws sortedAll s a =
      { executed := s.executed ++ [a]
        total_cost := s.total_cost + a.cost
        total_duration := s.total_duration + a.duration
        effects := s.effects ++ simulateSecondOrderEffects env a (s.executed ++ [a]) sortedAll
        k := s.k + 1 } := by
  unfold mcStep
  rw [if_pos h1, if_pos h2]

lemma mcStep_ready_fail (env : GenEnv) (draws : ℕ → ℚ) (sortedAll : List Action)
    (s : McState) (a : Action) (h1 : isReadyA (actionNames s.executed) a = true)
    (h2 : ¬draws s.k < a.success_probability) :
    mcStep env draws sortedAll s a = { s with k := s.k + 1 } := by
  unfold mcStep
  rw [if_pos h1, if_neg h2]

lemma mcStep_notready (env : GenEnv) (draws : ℕ → ℚ) (sortedAll : List Action)
    (s : McState) (a : Action) (h1 : ¬isReadyA (actionNames s.executed) a = true) :
    mcStep env draws sortedAll s a = s := by
  unfold mcStep
  rw [if_neg h1]

/-- The Monte Carlo loop appends a sublist of the scanned actions to the
executed list and accumulates exactly their costs and durations. -/
lemma mc_foldl_decomp (env : GenEnv) (draws : ℕ → ℚ) (sortedAll : List Action) :
    ∀ (l : List Action) (s : McState), ∃ d,
      (List.foldl (mcStep env draws sortedAll) s l).executed = s.executed ++ d ∧
      d.Sublist l ∧
      (List.foldl (mcStep env draws sortedAll) s l).total_cost = s.total_cost + sumCost d ∧
      (List.foldl (mcStep env draws sortedAll) s l).total_duration
        = s.total_duration + sumDuration d := by
  intro l
  induction l with
  | nil =>
    intro s
    exact ⟨[], by simp, List.Sublist.refl _, by simp [sumCost], by simp [sumDuration]⟩
  | cons a l ih =>
    intro s
    rw [List.foldl_cons]
    by_cases h1 : isReadyA (actionNames s.executed) a = true
    · by_cases h2 : draws s.k < a.success_probability
      · obtain ⟨d, he, hs, hc, hd⟩ :=
          ih { executed := s.executed ++ [a]
               total_cost := s.total_cost + a.cost
               total_duration := s.total_duration + a.duration
               effects := s.effects ++
                 simulateSecondOrderEffects env a (s.executed ++ [a]) sortedAll
               k := s.k + 1 }
        rw [mcStep_ready_success env draws sortedAll s a h1 h2]
        refine ⟨a :: d, ?_, hs.cons₂ a, ?_, ?_⟩
        · rw [he]
          simp
        · rw [hc]
          simp [sumCost]
          ring
        · rw [hd]
          simp [sumDuration]
          ring
      · obtain ⟨d, he, hs, hc, hd⟩ := ih { s with k := s.k + 1 }
        rw [mcStep_ready_fail env draws sortedAll s a h1 h2]
        exact ⟨d, he, hs.cons a, hc, hd⟩
    · obtain ⟨d, he, hs, hc, hd⟩ := ih s
      rw [mcStep_notready env draws sortedAll s a h1]
      exact ⟨d, he, hs.cons a, hc, hd⟩

/-- Appending an action whose dependencies are all named by `l` preserves
dependency respect. -/
lemma depsRespected_append_one (l : List Action) (a : Action)
    (hl : depsRespected l = true) (ha : isReadyA (actionNames l) a = true) :
    depsRespected (l ++ [a]) = true := by
  unfold depsRespected at hl ⊢
  rw [depsRespectedAux_append, Bool.and_eq_true]
  refine ⟨hl, ?_⟩
  rw [depsRespectedAux_cons, Bool.and_eq_true]
  constructor
  · rw [isReadyA_iff] at ha ⊢
    intro d hd
    simpa using ha d hd
  · rfl

/-- The Monte Carlo loop preserves dependency respect of the executed
list: an action is executed only when all its dependency names already
appear among the executed actions. -/
lemma mc_foldl_depsRespected (env : GenEnv) (draws : ℕ → ℚ) (sortedAll : List Action) :
    ∀ (l : List Action) (s : McState), depsRespected s.executed = true →
      depsRespected (List.foldl (mcStep env draws sortedAll) s l).executed = true := by
  intro l
  induction l with
  | nil => intro s h; simpa using h
  | cons a l ih =>
    intro s h
    rw [List.foldl_cons]
    by_cases h1 : isReadyA (actionNames s.executed) a = true
    · by_cases h2 : draws s.k < a.success_probability
      · rw [mcStep_ready_success env draws sortedAll s a h1 h2]
        exact ih _ (depsRespected_append_one s.executed a h h1)
      · rw [mcStep_ready_fail env draws sortedAll s a h1 h2]
        exact ih _ h
    · rw [mcStep_notready env draws sortedAll s a h1]
      exact ih _ h

/-- Through the Monte Carlo loop, every executed action with cost above
the high-cost threshold has its synthetic budget-pressure effect in the
effect list, built against the executed prefix up to and including it. -/
lemma mc_foldl_highcost (env : GenEnv) (draws : ℕ → ℚ) (sortedAll : List Action) :
    ∀ (l : List Action) (s : McState),
      (∀ i (hi : i < s.executed.length), (s.executed[i]).cost > 10000 →
        synthBudgetEffect s.executed[i] (s.executed.take (i + 1)) sortedAll ∈ s.effects) →
      ∀ i (hi : i < (List.foldl (mcStep env draws sortedAll) s l).executed.length),
        ((List.foldl (mcStep env draws sortedAll) s l).executed[i]).cost > 10000 →
        synthBudgetEffect (List.foldl (mcStep env draws sortedAll) s l).executed[i]
            ((List.foldl (mcStep env draws sortedAll) s l).executed.take (i + 1)) sortedAll
          ∈ (List.foldl (mcStep env draws sortedAll) s l).effects := by
  intro l
  induction l with
  | nil => intro s h; simpa using h
  | cons a l ih =>
    intro s h
    rw [List.foldl_cons]
    by_cases h1 : isReadyA (actionNames s.executed) a = true
    · by_cases h2 : draws s.k < a.success_probability
      · rw [mcStep_ready_success env draws sortedAll s a h1 h2]
        apply ih
        intro i hi hcost
        simp only at hi hcost ⊢
        by_cases hilt : i < s.executed.length
        · have hb : i < (s.executed ++ [a]).length := by simp; omega
          have e1 : (s.executed ++ [a])[i] = s.executed[i] :=
            List.getElem_append_left hilt
          have e2 : (s.executed ++ [a]).take (i + 1) = s.executed.take (i + 1) :=
            List.take_append_of_le_length (by omega)
          rw [e1] at hcost ⊢
          rw [e2]
          exact List.mem_append_left _ (h i hilt hcost)
        · have hlen : (s.executed ++ [a]).length = s.executed.length + 1 := by simp
          have hieq : i = s.executed.length := by simp at hi; omega
          subst hieq
          have hb : s.executed.length < (s.executed ++ [a]).length := by simp
          have e1 : (s.executed ++ [a])[s.executed.length] = a :=
            List.getElem_concat_length _ _ _ rfl _
          have e2 : (s.executed ++ [a]).take (s.executed.length + 1) = s.executed ++ [a] :=
            List.take_of_length_le (by simp)
          rw [e1] at hcost ⊢
          rw [e2]
          refine List.mem_append_right _ ?_
          unfold simulateSecondOrderEffects
          rw [if_pos hcost]
          simp
      · rw [mcStep_ready_fail env draws sortedAll s a h1 h2]
        exact ih _ h
    · rw [mcStep_notready env draws sortedAll s a h1]
      exact ih _ h

/-! ### Probability and risk lemmas -/

lemma foldl_mul_eq (f : Action → ℚ) :
    ∀ (l : List Action) (c : ℚ),
      l.foldl (fun p a => p * f a) c = c * (l.map f).prod := by
  intro l
  induction l with
  | nil => intro c; simp
  | cons a l ih =>
    intro c
    rw [List.foldl_cons, ih, List.map_cons, List.prod_cons]
    ring

lemma calculatePathProbability_eq (l : List Action) :
    calculatePathProbability l =
      if l = [] then 0 else (l.map (fun a => a.success_probability)).prod := by
  unfold calculatePathProbability
  by_cases h : l = []
  · rw [if_pos h, if_pos h]
  · rw [if_neg h, if_neg h, foldl_mul_eq]
    ring

lemma prod_mem_bounds (f : Action → ℚ) (l : List Action)
    (h : ∀ a ∈ l, 0 ≤ f a ∧ f a ≤ 1) :
    0 ≤ (l.map f).prod ∧ (l.map f).prod ≤ 1 := by
  induction l with
  | nil => simp
  | cons a l ih =>
    obtain ⟨ih0, ih1⟩ := ih (fun b hb => h b (by simp [hb]))
    obtain ⟨h0, h1⟩ := h a (by simp)
    rw [List.map_cons, List.prod_cons]
    exact ⟨mul_nonneg h0 ih0, mul_le_one₀ h1 ih0 ih1⟩

lemma calculatePathProbability_bounds (l : List Action)
    (h : ∀ a ∈ l, 0 ≤ a.success_probability ∧ a.success_probability ≤ 1) :
    0 ≤ calculatePathProbability l ∧ calculatePathProbability l ≤ 1 := by
  rw [calculatePathProbability_eq]
  by_cases he : l = []
  · rw [if_pos he]
    norm_num
  · rw [if_neg he]
    exact prod_mem_bounds _ l h

lemma risk_foldl_nonneg :
    ∀ (l : List SecondOrderEffect) (c : ℚ), 0 ≤ c → (∀ e ∈ l, 0 ≤ e.probability) →
      0 ≤ l.foldl
        (fun r e => if e.impact_magnitude < 0 then r + |e.impact_magnitude| * e.probability else r)
        c := by
  intro l
  induction l with
  | nil => intro c hc _; simpa using hc
  | cons e l ih =>
    intro c hc hp
    rw [List.foldl_cons]
    refine ih _ ?_ (fun x hx => hp x (by simp [hx]))
    by_cases hm : e.impact_magnitude < 0
    · rw [if_pos hm]
      have := mul_nonneg (abs_nonneg e.impact_magnitude) (hp e (by simp))
      linarith
    · rw [if_neg hm]
      exact hc

lemma calculateRiskScore_bounds (effects : List SecondOrderEffect) (c : ℚ)
    (hp : ∀ e ∈ effects, 0 ≤ e.probability) (hc : 0 ≤ c) :
    0 ≤ calculateRiskScore effects c ∧ calculateRiskScore effects c ≤ 1 := by
  unfold calculateRiskScore
  by_cases he : effects = []
  · rw [if_pos he]
    norm_num
  · rw [if_neg he]
    have hr : 0 ≤ effects.foldl
        (fun r e => if e.impact_magnitude < 0 then r + |e.impact_magnitude| * e.probability else r)
        0 := risk_foldl_nonneg effects 0 (le_refl 0) hp
    have hf : (0 : ℚ) ≤ 1 + c / 100000 := by
      have : (0 : ℚ) ≤ c / 100000 := div_nonneg hc (by norm_num)
      linarith
    constructor
    · exact le_min (mul_nonneg hr hf) zero_le_one
    · exact min_le_right _ _

lemma calculateRiskScore_nil (c : ℚ) : calculateRiskScore [] c = 0 := by
  simp [calculateRiskScore]

lemma sumCost_nonneg (l : List Action) (h : ∀ a ∈ l, 0 ≤ a.cost) : 0 ≤ sumCost l := by
  induction l with
  | nil => simp [sumCost]
  | cons a l ih =>
    have h0 := h a (by simp)
    have h1 := ih (fun b hb => h b (by simp [hb]))
    simp only [sumCost, List.map_cons, List.sum_cons]
    simp only [sumCost] at h1
    linarith

/-! ### Deterministic sampler lemmas -/

lemma detStep_lt (draws : ℕ → ℚ) (success_rate : ℚ) (s : DetState) (a : Action)
    (h : draws s.k < success_rate) :
    detStep draws success_rate s a =
      { executed := s.executed ++ [a]
        total_cost := s.total_cost + a.cost
        total_duration := s.total_duration + a.duration
        k := s.k + 1 } := by
  unfold detStep
  rw [if_pos h]

lemma detStep_ge (draws : ℕ → ℚ) (success_rate : ℚ) (s : DetState) (a : Action)
    (h : ¬draws s.k < success_rate) :
    detStep draws success_rate s a = { s with k := s.k + 1 } := by
  unfold detStep
  rw [if_neg h]

/-- The deterministic loop also appends a sublist of the scanned actions
and accumulates exactly its costs and durations. -/
lemma det_foldl_decomp (draws : ℕ → ℚ) (success_rate : ℚ) :
    ∀ (l : List Action) (s : DetState), ∃ d,
      (List.foldl (detStep draws success_rate) s l).executed = s.executed ++ d ∧
      d.Sublist l ∧
      (List.foldl (detStep draws success_rate) s l).total_cost = s.total_cost + sumCost d ∧
      (List.foldl (detStep draws success_rate) s l).total_duration
        = s.total_duration + sumDuration d := by
  intro l
  induction l with
  | nil =>
    intro s
    exact ⟨[], by simp, List.Sublist.refl _, by simp [sumCost], by simp [sumDuration]⟩
  | cons a l ih =>
    intro s
    rw [List.foldl_cons]
    by_cases h : draws s.k < success_rate
    · obtain ⟨d, he, hs, hc, hd⟩ :=
        ih { executed := s.executed ++ [a]
             total_cost := s.total_cost + a.cost
             total_duration := s.total_duration + a.duration
             k := s.k + 1 }
      rw [detStep_lt draws success_rate s a h]
      refine ⟨a :: d, ?_, hs.cons₂ a, ?_, ?_⟩
      · rw [he]
        simp
      · rw [hc]
        simp [sumCost]
        ring
      · rw [hd]
        simp [sumDuration]
        ring
    · obtain ⟨d, he, hs, hc, hd⟩ := ih { s with k := s.k + 1 }
      rw [detStep_ge draws success_rate s a h]
      exact ⟨d, he, hs.cons a, hc, hd⟩

lemma createDeterministicPath_actions (draws : ℕ → ℚ) (nm : String) (actions : List Action)
    (success_rate : ℚ) (k : ℕ) :
    (createDeterministicPath draws nm actions success_rate k).1.actions_taken
      = (List.foldl (detStep draws success_rate) ⟨[], 0, 0, k⟩ actions).executed := rfl

lemma createDeterministicPath_probability (draws : ℕ → ℚ) (nm : String) (actions : List Action)
    (success_rate : ℚ) (k : ℕ) :
    (createDeterministicPath draws nm actions success_rate k).1.probability
      = success_rate ^ (createDeterministicPath draws nm actions success_rate k).1.actions_taken.length := rfl

lemma createDeterministicPath_risk (draws : ℕ → ℚ) (nm : String) (actions : List Action)
    (success_rate : ℚ) (k : ℕ) :
    (createDeterministicPath draws nm actions success_rate k).1.risk_score = 1 - success_rate := rfl

lemma createDeterministicPath_decomp (draws : ℕ → ℚ) (nm : String) (actions : List Action)
    (success_rate : ℚ) (k : ℕ) :
    (createDeterministicPath draws nm actions success_rate k).1.actions_taken.Sublist actions
    ∧ (createDeterministicPath draws nm actions success_rate k).1.total_cost
        = sumCost ((createDeterministicPath draws nm actions success_rate k).1.actions_taken)
    ∧ (createDeterministicPath draws nm actions success_rate k).1.total_duration
        = sumDuration ((createDeterministicPath draws nm actions success_rate k).1.actions_taken) := by
  obtain ⟨d, he, hs, hc, hd⟩ :=
    det_foldl_decomp draws success_rate actions (⟨[], 0, 0, k⟩ : DetState)
  have hat : (createDeterministicPath draws nm actions success_rate k).1.actions_taken
      = (List.foldl (detStep draws success_rate) ⟨[], 0, 0, k⟩ actions).executed := rfl
  have hct : (createDeterministicPath draws nm actions success_rate k).1.total_cost
      = (List.foldl (detStep draws success_rate) ⟨[], 0, 0, k⟩ actions).total_cost := rfl
  have hdt : (createDeterministicPath draws nm actions success_rate k).1.total_duration
      = (List.foldl (detStep draws success_rate) ⟨[], 0, 0, k⟩ actions).total_duration := rfl
  rw [hat, hct, hdt, he, hc, hd]
  simp only [List.nil_append]
  exact ⟨hs, by simp, by simp⟩

/-! ### Path membership in the two run modes -/

lemma mcPathsList_mem (env : GenEnv) (draws : ℕ → ℚ) (actions : List Action) :
    ∀ (n i k : ℕ) (p : SimulationPath), p ∈ (mcPathsList env draws actions n i k).1 →
      ∃ j kk, p = (runMonteCarloSimulation env draws actions j kk).1 := by
  intro n
  induction n with
  | zero => intro i k p hp; simp [mcPathsList] at hp
  | succ m ih =>
    intro i k p hp
    rw [mcPathsList] at hp
    simp only [List.mem_cons] at hp
    rcases hp with hp | hp
    · exact ⟨i, k, hp⟩
    · exact ih (i + 1) (runMonteCarloSimulation env draws actions i k).2 p hp

lemma exploreAllPaths_mem (draws : ℕ → ℚ) (actions : List Action) (k : ℕ)
    (p : SimulationPath) (hp : p ∈ (exploreAllPaths draws actions k).1) :
    ∃ (nm : String) (rate : ℚ) (kk : ℕ),
      (rate = 1 ∨ rate = mkRat 8 10 ∨ rate = mkRat 5 10) ∧
      p = (createDeterministicPath draws nm (topologicalSort actions) rate kk).1 := by
  rw [exploreAllPaths] at hp
  simp only [List.mem_cons, List.not_mem_nil, or_false] at hp
  rcases hp with hp | hp | hp
  · exact ⟨"optimistic", 1, k, Or.inl rfl, hp⟩
  · exact ⟨"realistic", mkRat 8 10, _, Or.inr (Or.inl rfl), hp⟩
  · exact ⟨"pessimistic", mkRat 5 10, _, Or.inr (Or.inr rfl), hp⟩

lemma analyzeSimulationResults_paths (rt : ℚ) (nm : String) (paths : List SimulationPath) :
    (analyzeSimulationResults rt nm paths).paths = paths := by
  unfold analyzeSimulationResults
  by_cases h : paths = []
  · rw [if_pos h, h]
  · rw [if_neg h]

lemma simulateScenario_paths (rt : ℚ) (env : GenEnv) (draws : ℕ → ℚ) (nm : String)
    (actions : List Action) (n : ℕ) (mc : Bool) :
    (simulateScenario rt env draws nm actions n mc).paths
      = if mc then (mcPathsList env draws actions n 0 0).1
        else (exploreAllPaths draws actions 0).1 := by
  unfold simulateScenario
  cases mc
  · exact analyzeSimulationResults_paths rt nm _
  · exact analyzeSimulationResults_paths rt nm _

/-- The Monte Carlo sampler's path: `actions_taken` is a sublist of the
resolver's ordering and the totals sum exactly over it. -/
lemma mc_path_decomp (env : GenEnv) (draws : ℕ → ℚ) (actions : List Action) (j k : ℕ) :
    (runMonteCarloSimulation env draws actions j k).1.actions_taken.Sublist
        (topologicalSort actions)
    ∧ (runMonteCarloSimulation env draws actions j k).1.total_cost
        = sumCost ((runMonteCarloSimulation env draws actions j k).1.actions_taken)
    ∧ (runMonteCarloSimulation env draws actions j k).1.total_duration
        = sumDuration ((runMonteCarloSimulation env draws actions j k).1.actions_taken) := by
  obtain ⟨d, he, hs, hc, hd⟩ := mc_foldl_decomp env draws (topologicalSort actions)
    (topologicalSort actions) (⟨[], 0, 0, [], k⟩ : McState)
  have hat : (runMonteCarloSimulation env draws actions j k).1.actions_taken
      = (List.foldl (mcStep env draws (topologicalSort actions))
          ⟨[], 0, 0, [], k⟩ (topologicalSort actions)).executed := rfl
  have hct : (runMonteCarloSimulation env draws actions j k).1.total_cost
      = (List.foldl (mcStep env draws (topologicalSort actions))
          ⟨[], 0, 0, [], k⟩ (topologicalSort actions)).total_cost := rfl
  have hdt : (runMonteCarloSimulation env draws actions j k).1.total_duration
      = (List.foldl (mcStep env draws (topologicalSort actions))
          ⟨[], 0, 0, [], k⟩ (topologicalSort actions)).total_duration := rfl
  rw [hat, hct, hdt, he, hc, hd]
  simp only [List.nil_append]
  exact ⟨hs, by simp, by simp⟩

lemma prod_map_const (l : List Action) (c : ℚ) :
    (l.map (fun _ => c)).prod = c ^ l.length := by
  induction l with
  | nil => simp
  | cons a l ih =>
    rw [List.map_cons, List.prod_cons, ih, List.length_cons]
    ring

lemma analyzeSimulationResults_success_rate (rt : ℚ) (nm : String)
    (paths : List SimulationPath) (h : paths ≠ []) :
    (analyzeSimulationResults rt nm paths).success_rate
      = ((paths.filter (fun p => p.outcome_type == OutcomeType.success
          || p.outcome_type == OutcomeType.partial_success)).length : ℚ)
        / (paths.length : ℚ) := by
  unfold analyzeSimulationResults
  rw [if_neg h]

lemma analyzeSimulationResults_recommended (rt : ℚ) (nm : String)
    (paths : List SimulationPath) (h : paths ≠ []) :
    (analyzeSimulationResults rt nm paths).recommended_path
      = selectRecommendedPath rt paths := by
  unfold analyzeSimulationResults
  rw [if_neg h]

/-- `determineOutcome` on an empty candidate set: the completion ratio is
`0 / 1 = 0`, classified catastrophic. -/
lemma determineOutcome_nil : determineOutcome [] [] = OutcomeType.catastrophic := by
  unfold determineOutcome
  norm_num [Rat.mkRat_eq_div]

/-- A Monte Carlo run over an empty action set: the path executes
nothing, at zero cost, with probability `0` and a catastrophic outcome. -/
lemma runMC_nil (env : GenEnv) (draws : ℕ → ℚ) (i k : ℕ) :
    (runMonteCarloSimulation env draws [] i k).1
      = ⟨"mc_" ++ toString i, [], OutcomeType.catastrophic, 0, 0, 0, [], 0⟩ := by
  unfold runMonteCarloSimulation topologicalSort
  simp only [List.length_nil, topoAux, List.foldl_nil]
  rw [determineOutcome_nil]
  rfl

/-- Monte Carlo sampling of an empty action set: one path per sample,
each executing nothing and classified catastrophic. -/
lemma mcPathsList_nil (env : GenEnv) (draws : ℕ → ℚ) :
    ∀ (n i k : ℕ), (mcPathsList env draws [] n i k).1.length = n ∧
      ∀ p ∈ (mcPathsList env draws [] n i k).1,
        p.actions_taken = [] ∧ p.outcome_type = OutcomeType.catastrophic := by
  intro n
  induction n with
  | zero => intro i k; exact ⟨rfl, by simp [mcPathsList]⟩
  | succ m ih =>
    intro i k
    rw [mcPathsList]
    obtain ⟨ihlen, ihmem⟩ := ih (i + 1) (runMonteCarloSimulation env draws [] i k).2
    refine ⟨by simpa using ihlen, ?_⟩
    intro p hp
    rcases List.mem_cons.mp hp with hp | hp
    · rw [hp, runMC_nil]
      exact ⟨rfl, rfl⟩
    · exact ihmem p hp

/-! ### Recommended-path selection lemmas -/

lemma scoredInsert_ne_nil (x : ℚ × SimulationPath) (l : List (ℚ × SimulationPath)) :
    scoredInsert x l ≠ [] := by
  cases l with
  | nil => simp [scoredInsert]
  | cons y ys =>
    rw [scoredInsert]
    by_cases h : y.1 > x.1
    · rw [if_pos h]
      simp
    · rw [if_neg h]
      simp

/-- The head of the stable descending sort is the first element of the
input attaining the maximal score. -/
lemma stableSortDesc_head (l : List (ℚ × SimulationPath)) (h : l ≠ []) :
    ∃ x l1 l2, (stableSortDesc l).head? = some x ∧ l = l1 ++ x :: l2 ∧
      (∀ y ∈ l, y.1 ≤ x.1) ∧ (∀ y ∈ l1, y.1 < x.1) := by
  induction l with
  | nil => exact absurd rfl h
  | cons a l ih =>
    by_cases hl : l = []
    · subst hl
      refine ⟨a, [], [], by simp [stableSortDesc, scoredInsert], by simp, ?_, by simp⟩
      intro y hy
      simp at hy
      rw [hy]
    · obtain ⟨x, l1, l2, hh, hdecomp, hmax, hstrict⟩ := ih hl
      rw [stableSortDesc]
      cases hs : stableSortDesc l with
      | nil => rw [hs] at hh; simp at hh
      | cons y t =>
        rw [hs] at hh
        simp only [List.head?_cons, Option.some_inj] at hh
        rw [scoredInsert, hh]
        by_cases hgt : x.1 > a.1
        · rw [if_pos hgt]
          refine ⟨x, a :: l1, l2, by simp, by rw [hdecomp]; simp, ?_, ?_⟩
          · intro z hz
            rcases List.mem_cons.mp hz with hz | hz
            · rw [hz]; exact le_of_lt hgt
            · exact hmax z hz
          · intro z hz
            rcases List.mem_cons.mp hz with hz | hz
            · rw [hz]; exact hgt
            · exact hstrict z hz
        · rw [if_neg hgt]
          refine ⟨a, [], l, by simp, by simp, ?_, by simp⟩
          intro z hz
          rcases List.mem_cons.mp hz with hz | hz
          · rw [hz]
          · exact le_trans (hmax z hz) (le_of_not_lt hgt)

/-- `_select_recommended_path` on a non-empty list returns the first
path of maximal score (Python's stable sort keeps input order on ties). -/
lemma selectRecommendedPath_spec (rt : ℚ) (paths : List SimulationPath) (h : paths ≠ []) :
    ∃ i, ∃ hi : i < paths.length,
      selectRecommendedPath rt paths = some paths[i] ∧
      (∀ q ∈ paths, scoreOf rt q ≤ scoreOf rt paths[i]) ∧
      (∀ j (hj : j < i), scoreOf rt (paths.get ⟨j, lt_trans hj hi⟩) < scoreOf rt paths[i]) := by
  have hm : paths.map (fun p => (scoreOf rt p, p)) ≠ [] := by
    intro hc
    exact h (List.map_eq_nil_iff.mp hc)
  obtain ⟨x, l1, l2, hh, hdecomp, hmax, hstrict⟩ :=
    stableSortDesc_head (paths.map (fun p => (scoreOf rt p, p))) hm
  obtain ⟨t, hs⟩ : ∃ t, stableSortDesc (paths.map (fun p => (scoreOf rt p, p))) = x :: t := by
    cases hq : stableSortDesc (paths.map (fun p => (scoreOf rt p, p))) with
    | nil => rw [hq] at hh; simp at hh
    | cons y u =>
      rw [hq] at hh
      simp only [List.head?_cons, Option.some_inj] at hh
      exact ⟨u, by rw [hh]⟩
  have hlen : paths.length = l1.length + (1 + l2.length) := by
    have hcl := congrArg List.length hdecomp
    simpa [add_comm, add_assoc] using hcl
  have hi : l1.length < paths.length := by omega
  have hx : x = (scoreOf rt paths[l1.length], paths[l1.length]) := by
    have hb : l1.length < (paths.map (fun p => (scoreOf rt p, p))).length := by simp [hlen]
    have h1 : (paths.map (fun p => (scoreOf rt p, p)))[l1.length] = x := by
      simp only [hdecomp]
      rw [List.getElem_append_right (le_refl _)]
      simp
    rw [List.getElem_map] at h1
    exact h1.symm
  refine ⟨l1.length, hi, ?_, ?_, ?_⟩
  · unfold selectRecommendedPath
    rw [if_neg h]
    simp only [hs]
    rw [hx]
  · intro q hq
    have hmem : (scoreOf rt q, q) ∈ paths.map (fun p => (scoreOf rt p, p)) :=
      List.mem_map.mpr ⟨q, hq, rfl⟩
    have hle := hmax _ hmem
    rw [hx] at hle
    simpa using hle
  · intro j hj
    simp only [List.get_eq_getElem]
    have hb : j < (paths.map (fun p => (scoreOf rt p, p))).length := by simp; omega
    have hmem : (paths.map (fun p => (scoreOf rt p, p)))[j] ∈ l1 := by
      simp only [hdecomp]
      rw [List.getElem_append_left (by omega)]
      exact List.getElem_mem _
    have hlt := hstrict _ hmem
    rw [List.getElem_map] at hlt
    rw [hx] at hlt
    simpa using hlt

lemma selectRecommendedPath_isSome (rt : ℚ) (paths : List SimulationPath) (h : paths ≠ []) :
    (selectRecommendedPath rt paths).isSome = true := by
  obtain ⟨i, hi, heq, _, _⟩ := selectRecommendedPath_spec rt paths h
  rw [heq]
  rfl

/-! ### Per-path bound lemmas -/

lemma mc_path_bounds (env : GenEnv) (draws : ℕ → ℚ) (actions : List Action) (j k : ℕ)
    (hsp : ∀ a ∈ actions, 0 ≤ a.success_probability ∧ a.success_probability ≤ 1)
    (hc : ∀ a ∈ actions, 0 ≤ a.cost)
    (hep : ∀ e ∈ (runMonteCarloSimulation env draws actions j k).1.second_order_effects,
      0 ≤ e.probability) :
    0 ≤ (runMonteCarloSimulation env draws actions j k).1.probability
    ∧ (runMonteCarloSimulation env draws actions j k).1.probability ≤ 1
    ∧ 0 ≤ (runMonteCarloSimulation env draws actions j k).1.risk_score
    ∧ (runMonteCarloSimulation env draws actions j k).1.risk_score ≤ 1 := by
  obtain ⟨hsub, hcost, _⟩ := mc_path_decomp env draws actions j k
  have hmemActs : ∀ a ∈ (runMonteCarloSimulation env draws actions j k).1.actions_taken,
      a ∈ actions := fun a ha => topologicalSort_mem actions (List.Sublist.mem ha hsub)
  have hprob : (runMonteCarloSimulation env draws actions j k).1.probability
      = calculatePathProbability (runMonteCarloSimulation env draws actions j k).1.actions_taken :=
    rfl
  have hrisk : (runMonteCarloSimulation env draws actions j k).1.risk_score
      = calculateRiskScore (runMonteCarloSimulation env draws actions j k).1.second_order_effects
          (runMonteCarloSimulation env draws actions j k).1.total_cost := rfl
  obtain ⟨hp0, hp1⟩ := calculatePathProbability_bounds _
    (fun a ha => hsp a (hmemActs a ha))
  have hc0 : 0 ≤ (runMonteCarloSimulation env draws actions j k).1.total_cost := by
    rw [hcost]
    exact sumCost_nonneg _ (fun a ha => hc a (hmemActs a ha))
  obtain ⟨hr0, hr1⟩ := calculateRiskScore_bounds _ _ hep hc0
  rw [hprob, hrisk]
  exact ⟨hp0, hp1, hr0, hr1⟩

lemma mc_path_risk_zero_of_no_effects (env : GenEnv) (draws : ℕ → ℚ)
    (actions : List Action) (j k : ℕ)
    (h : (runMonteCarloSimulation env draws actions j k).1.second_order_effects = []) :
    (runMonteCarloSimulation env draws actions j k).1.risk_score = 0 := by
  have hrisk : (runMonteCarloSimulation env draws actions j k).1.risk_score
      = calculateRiskScore (runMonteCarloSimulation env draws actions j k).1.second_order_effects
          (runMonteCarloSimulation env draws actions j k).1.total_cost := rfl
  rw [hrisk, h, calculateRiskScore_nil]

lemma det_path_bounds (draws : ℕ → ℚ) (nm : String) (actions : List Action)
    (rate : ℚ) (k : ℕ) (h0 : 0 ≤ rate) (h1 : rate ≤ 1) :
    0 ≤ (createDeterministicPath draws nm actions rate k).1.probability
    ∧ (createDeterministicPath draws nm actions rate k).1.probability ≤ 1
    ∧ 0 ≤ (createDeterministicPath draws nm actions rate k).1.risk_score
    ∧ (createDeterministicPath draws nm actions rate k).1.risk_score ≤ 1 := by
  rw [createDeterministicPath_probability, createDeterministicPath_risk]
  refine ⟨pow_nonneg h0 _, pow_le_one₀ h0 h1, by linarith, by linarith⟩

/-! ### Concrete inputs used to instantiate and refute the claims -/

/-- An effect-generator environment with no generators defined (every
identifier raises, which the cascader catches and skips). -/
def envNone : GenEnv := fun _ _ _ _ => none

/-- A random stream that always draws `0` (every eligible action whose
success probability is positive succeeds). -/
def drawsZero : ℕ → ℚ := fun _ => 0

/-- A random stream whose third draw is `0.9` and all others `0`. -/
def drawsDet : ℕ → ℚ := fun k => if k = 2 then mkRat 9 10 else 0

/-- Action `"a"` depending on `"b"` (half of a two-cycle). -/
def actCycleA : Action := ⟨"a", "", 0, 0, 1, ["b"], []⟩

/-- Action `"b"` depending on `"a"` (half of a two-cycle). -/
def actCycleB : Action := ⟨"b", "", 0, 0, 1, ["a"], []⟩

/-- A dependency-free action that never succeeds (probability `0`). -/
def actPlainC : Action := ⟨"c", "", 0, 0, 0, [], []⟩

/-- A dependency-free action that never succeeds (probability `0`). -/
def actPlainD : Action := ⟨"d", "", 0, 0, 0, [], []⟩

/-- A dependency-free action `"a"` that always succeeds. -/
def actFree : Action := ⟨"a", "", 0, 0, 1, [], []⟩

/-- An action `"b"` depending on `"a"`, always succeeding when drawn. -/
def actDep : Action := ⟨"b", "", 0, 0, 1, ["a"], []⟩

/-- A high-cost action (cost 20000, above the 10000 threshold). -/
def actHigh : Action := ⟨"h1", "", 0, 20000, 1, [], []⟩

/-- An action with a large negative cost. -/
def actNeg : Action := ⟨"n1", "", 0, -300000, 1, [], []⟩

/-! ### Claims -/

/-- C5: for every action set with unique names whose dependency graph is
acyclic (witnessed by a rank function placing every dependency strictly
below its dependent) and whose every listed dependency names an action of
the set, `resolve_order` (`_topological_sort`) returns an ordering in
which each action appears after actions carrying all the names in its
dependency list. -/
theorem c5_resolve_order_acyclic_correct (actions : List Action)
    (hnames : (actionNames actions).Nodup)
    (hpres : ∀ a ∈ actions, ∀ d ∈ a.dependencies, d ∈ actionNames actions)
    (hacyc : ∃ rank : String → ℕ, ∀ a ∈ actions, ∀ d ∈ a.dependencies,
      rank d < rank a.name) :
    depsRespected (topologicalSort actions) = true := by
  obtain ⟨rank, hrank⟩ := hacyc
  exact (topo_master rank actions.length [] actions (le_refl _)
    (fun a ha d hd => Or.inr (hpres a ha d hd)) hrank).1 rfl

/-- Witness for C5 at the two-action chain `a ← b`. -/
theorem c5_witness :
    (actionNames [actFree, actDep]).Nodup
    ∧ (∀ a ∈ [actFree, actDep], ∀ d ∈ a.dependencies, d ∈ actionNames [actFree, actDep])
    ∧ depsRespected (topologicalSort [actFree, actDep]) = true :=
  ⟨by decide, by decide,
    c5_resolve_order_acyclic_correct [actFree, actDep] (by decide) (by decide)
      ⟨fun s => if s = "a" then 0 else 1, by decide⟩⟩

/-- C6: the claim says `resolve_order` terminates and returns every input
action exactly once on every uniquely-named action set including cycles.
The code terminates but duplicates actions on a cycle: in the deadlock
branch `ready` aliases `remaining`, and removing while iterating skips
every other element, which is then appended a second time.  On the
two-cycle `a ⇄ b` the code returns `[a, b, b]` with `b` twice. -/
theorem c6_cycle_duplicates_action :
    topologicalSort [actCycleA, actCycleB] = [actCycleA, actCycleB, actCycleB]
    ∧ (topologicalSort [actCycleA, actCycleB]).count actCycleB = 2 := by
  decide

/-- C4 (amended): in Monte Carlo mode every action in `actions_taken` has
all its dependency names among earlier actions of the same path; in
deterministic mode no dependency check is made, and a path can execute an
action whose dependency failed (shown at a concrete two-action input
where the realistic path executes `b` without `a`). -/
theorem c4_dependencies_respected_mc_only :
    (∀ (env : GenEnv) (draws : ℕ → ℚ) (actions : List Action) (simId k : ℕ),
      depsRespected (runMonteCarloSimulation env draws actions simId k).1.actions_taken = true)
    ∧ ((simulateScenario (mkRat 5 10) envNone drawsDet "x" [actFree, actDep] 0 false).paths.any
        (fun p => !(depsRespected p.actions_taken))) = true := by
  constructor
  · intro env draws actions simId k
    exact mc_foldl_depsRespected env draws (topologicalSort actions)
      (topologicalSort actions) ⟨[], 0, 0, [], k⟩ rfl
  · decide

/-- Counterexample for C4 as stated: in deterministic mode the produced
realistic path executes action `"b"` although its dependency `"a"` did
not execute earlier in the path. -/
theorem c4_counterexample :
    ((simulateScenario (mkRat 5 10) envNone drawsDet "x" [actFree, actDep] 0 false).paths.any
      (fun p => !(depsRespected p.actions_taken))) = true := by
  decide

/-- C3 (amended): a Monte Carlo path's probability is the product of the
success probabilities of its executed actions, and `0` (by convention)
when none executed; a deterministic path's probability is the product of
the uniform override rate over its executed actions, which is `1`, not
`0`, when none executed. -/
theorem c3_path_probability :
    (∀ (env : GenEnv) (draws : ℕ → ℚ) (actions : List Action) (simId k : ℕ),
      (runMonteCarloSimulation env draws actions simId k).1.probability =
        if (runMonteCarloSimulation env draws actions simId k).1.actions_taken = [] then 0
        else ((runMonteCarloSimulation env draws actions simId k).1.actions_taken.map
          (fun a => a.success_probability)).prod)
    ∧ (∀ (draws : ℕ → ℚ) (nm : String) (actions : List Action) (rate : ℚ) (k : ℕ),
      (createDeterministicPath draws nm actions rate k).1.probability =
        ((createDeterministicPath draws nm actions rate k).1.actions_taken.map
          (fun _ => rate)).prod) := by
  constructor
  · intro env draws actions simId k
    have h : (runMonteCarloSimulation env draws actions simId k).1.probability
        = calculatePathProbability
            (runMonteCarloSimulation env draws actions simId k).1.actions_taken := rfl
    rw [h, calculatePathProbability_eq]
  · intro draws nm actions rate k
    rw [createDeterministicPath_probability, prod_map_const]

/-- Counterexample for C3 as stated: the deterministic sampler on an
empty action set produces paths with no executed action whose probability
field is `1`, not `0`. -/
theorem c3_counterexample :
    ((simulateScenario (mkRat 5 10) envNone drawsZero "x" [] 5 false).paths.any
      (fun p => p.actions_taken.isEmpty && (p.probability == 1))) = true := by
  decide

/-- C9: in stochastic mode, every executed action with cost strictly
above 10000 leaves in the path's effect list a synthetic budget-pressure
effect originating from it, with probability `0.8`, impact `-0.3`, and an
affected-action list naming exactly the candidate actions not yet
executed at that point. -/
theorem c9_high_cost_cascade (env : GenEnv) (draws : ℕ → ℚ) (actions : List Action)
    (simId k : ℕ) :
    ∀ i (hi : i < (runMonteCarloSimulation env draws actions simId k).1.actions_taken.length),
      ((runMonteCarloSimulation env draws actions simId k).1.actions_taken[i]).cost > 10000 →
      ∃ e ∈ (runMonteCarloSimulation env draws actions simId k).1.second_order_effects,
        e.source_action
            = ((runMonteCarloSimulation env draws actions simId k).1.actions_taken[i]).name
        ∧ e.probability = mkRat 8 10
        ∧ e.impact_magnitude = -(mkRat 3 10)
        ∧ e.affected_actions = actionNames ((topologicalSort actions).filter
            (fun b => !(((runMonteCarloSimulation env draws actions simId k).1.actions_taken.take
              (i + 1)).contains b))) := by
  intro i hi hcost
  have hinv := mc_foldl_highcost env draws (topologicalSort actions) (topologicalSort actions)
    (⟨[], 0, 0, [], k⟩ : McState) (by intro i hi hc; simp at hi) i hi hcost
  exact ⟨synthBudgetEffect
      ((runMonteCarloSimulation env draws actions simId k).1.actions_taken[i])
      ((runMonteCarloSimulation env draws actions simId k).1.actions_taken.take (i + 1))
      (topologicalSort actions), hinv, rfl, rfl, rfl, rfl⟩

/-- Witness for C9: a single high-cost action (cost 20000) that executes
produces the synthetic effect. -/
theorem c9_witness :
    ∃ e ∈ (runMonteCarloSimulation envNone drawsZero [actHigh] 0 0).1.second_order_effects,
      e.probability = mkRat 8 10 ∧ e.impact_magnitude = -(mkRat 3 10) := by
  obtain ⟨e, he, _, hp, hi, _⟩ :=
    c9_high_cost_cascade envNone drawsZero [actHigh] 0 0 0 (by decide) (by decide)
  exact ⟨e, he, hp, hi⟩

/-- C10: on a non-empty path list the recommended path is a path of the
list maximising path value × probability × (1 − risk score × (1 − risk
tolerance)), and among equal scores the first-encountered path wins
(Python's stable sort keeps input order on ties). -/
theorem c10_recommended_path (risk_tolerance : ℚ) (paths : List SimulationPath)
    (h : paths ≠ []) :
    ∃ i, ∃ hi : i < paths.length,
      selectRecommendedPath risk_tolerance paths = some paths[i]
      ∧ (∀ q ∈ paths,
          calculatePathValue q * q.probability * (1 - q.risk_score * (1 - risk_tolerance))
            ≤ calculatePathValue paths[i] * (paths[i]).probability
                * (1 - (paths[i]).risk_score * (1 - risk_tolerance)))
      ∧ (∀ j (hj : j < i),
          calculatePathValue (paths.get ⟨j, lt_trans hj hi⟩)
              * (paths.get ⟨j, lt_trans hj hi⟩).probability
              * (1 - (paths.get ⟨j, lt_trans hj hi⟩).risk_score * (1 - risk_tolerance))
            < calculatePathValue paths[i] * (paths[i]).probability
                * (1 - (paths[i]).risk_score * (1 - risk_tolerance))) := by
  obtain ⟨i, hi, heq, hmax, hstrict⟩ := selectRecommendedPath_spec risk_tolerance paths h
  refine ⟨i, hi, heq, ?_, ?_⟩
  · intro q hq
    have := hmax q hq
    simpa [scoreOf, riskAdjustment] using this
  · intro j hj
    have := hstrict j hj
    simpa [scoreOf, riskAdjustment] using this

/-- A fixed path used to instantiate C10. -/
def pathP0 : SimulationPath := ⟨"p", [], OutcomeType.success, 0, 0, 1, [], 0⟩

/-- Witness for C10 on a one-path list. -/
theorem c10_witness :
    ∃ i, ∃ hi : i < [pathP0].length,
      selectRecommendedPath (mkRat 5 10) [pathP0] = some ([pathP0][i])
      ∧ (∀ q ∈ [pathP0],
          calculatePathValue q * q.probability * (1 - q.risk_score * (1 - mkRat 5 10))
            ≤ calculatePathValue ([pathP0][i]) * (([pathP0][i])).probability
                * (1 - (([pathP0][i])).risk_score * (1 - mkRat 5 10)))
      ∧ (∀ j (hj : j < i),
          calculatePathValue ([pathP0].get ⟨j, lt_trans hj hi⟩)
              * ([pathP0].get ⟨j, lt_trans hj hi⟩).probability
              * (1 - ([pathP0].get ⟨j, lt_trans hj hi⟩).risk_score * (1 - mkRat 5 10))
            < calculatePathValue ([pathP0][i]) * (([pathP0][i])).probability
                * (1 - (([pathP0][i])).risk_score * (1 - mkRat 5 10))) :=
  c10_recommended_path (mkRat 5 10) [pathP0] (by decide)

/-- C1 (amended): on a deadlocked iteration (no ready action while
actions remain) the resolver extends the output by all remaining actions
in their current (input-derived) order; but no `UnresolvedDependency`
condition exists anywhere in the result: the run returns a plain
`ScenarioResult`, and a degraded run can be exactly equal to a clean
run's result, so callers cannot distinguish the two. -/
theorem c1_resolver_best_effort_unreported :
    (∀ (fuel : ℕ) (sorted remaining : List Action), remaining ≠ [] →
      remaining.filter (isReadyA (actionNames sorted)) = [] →
      ∃ rest, topoAux (fuel + 1) sorted remaining = (sorted ++ remaining) ++ rest)
    ∧ simulateScenario (mkRat 5 10) envNone drawsZero "x" [actCycleA, actCycleB] 1 true
        = simulateScenario (mkRat 5 10) envNone drawsZero "x" [actPlainC, actPlainD] 1 true := by
  constructor
  · intro fuel sorted remaining hne hready
    rw [topoAux, if_neg hne, if_pos hready]
    exact topoAux_extends fuel (sorted ++ remaining) (eraseAlias remaining.length 0 remaining)
  · simp [simulateScenario, mcPathsList, runMonteCarloSimulation, topologicalSort, topoAux,
      eraseAlias, isReadyA, actionNames, mcStep, simulateSecondOrderEffects, determineOutcome,
      calculatePathProbability, calculateRiskScore, analyzeSimulationResults,
      selectRecommendedPath, stableSortDesc, scoredInsert, scoreOf, calculatePathValue,
      riskAdjustment, actCycleA, actCycleB, actPlainC, actPlainD, envNone, drawsZero,
      synthBudgetEffect]

/-- Witness for C1's deadlock clause at the two-cycle. -/
theorem c1_witness :
    ([actCycleA, actCycleB] ≠ ([] : List Action))
    ∧ ([actCycleA, actCycleB].filter (isReadyA (actionNames ([] : List Action))) = [])
    ∧ ∃ rest, topoAux 2 [] [actCycleA, actCycleB]
        = (([] : List Action) ++ [actCycleA, actCycleB]) ++ rest :=
  ⟨by decide, by decide,
    c1_resolver_best_effort_unreported.1 1 [] [actCycleA, actCycleB] (by decide) (by decide)⟩

/-- Counterexample for C1 as stated: a run over a two-cycle (an
unresolvable dependency graph) returns a result exactly equal to that of
a clean run over two dependency-free actions, so no `UnresolvedDependency`
condition is reported alongside the result and callers cannot distinguish
a degraded ordering from a clean one. -/
theorem c1_counterexample :
    simulateScenario (mkRat 5 10) envNone drawsZero "x" [actCycleA, actCycleB] 1 true
      = simulateScenario (mkRat 5 10) envNone drawsZero "x" [actPlainC, actPlainD] 1 true := by
  simp [simulateScenario, mcPathsList, runMonteCarloSimulation, topologicalSort, topoAux,
    eraseAlias, isReadyA, actionNames, mcStep, simulateSecondOrderEffects, determineOutcome,
    calculatePathProbability, calculateRiskScore, analyzeSimulationResults,
    selectRecommendedPath, stableSortDesc, scoredInsert, scoreOf, calculatePathValue,
    riskAdjustment, actCycleA, actCycleB, actPlainC, actPlainD, envNone, drawsZero,
    synthBudgetEffect]

/-- C2 (amended): simulating an empty action set in Monte Carlo mode with
100 samples returns, without error, a `ScenarioResult` with success rate
`0`, but with 100 paths (one per sample, each executing nothing) rather
than an empty path list, and with the recommended path present (the
first sampled path) rather than absent. -/
theorem c2_empty_action_set (draws : ℕ → ℚ) (env : GenEnv) :
    (simulateScenario (mkRat 5 10) env draws "x" [] 100 true).success_rate = 0
    ∧ (simulateScenario (mkRat 5 10) env draws "x" [] 100 true).paths.length = 100
    ∧ (∀ p ∈ (simulateScenario (mkRat 5 10) env draws "x" [] 100 true).paths,
        p.actions_taken = [])
    ∧ (simulateScenario (mkRat 5 10) env draws "x" [] 100 true).recommended_path.isSome
        = true := by
  have hana : simulateScenario (mkRat 5 10) env draws "x" [] 100 true
      = analyzeSimulationResults (mkRat 5 10) "x" (mcPathsList env draws [] 100 0 0).1 := rfl
  obtain ⟨hlen, hmem⟩ := mcPathsList_nil env draws 100 0 0
  have hne : (mcPathsList env draws [] 100 0 0).1 ≠ [] := by
    intro hc
    rw [hc] at hlen
    simp at hlen
  refine ⟨?_, ?_, ?_, ?_⟩
  · rw [hana, analyzeSimulationResults_success_rate _ _ _ hne]
    have hfil : (mcPathsList env draws [] 100 0 0).1.filter
        (fun p => p.outcome_type == OutcomeType.success
          || p.outcome_type == OutcomeType.partial_success) = [] := by
      refine List.filter_eq_nil_iff.mpr (fun p hp => ?_)
      rw [(hmem p hp).2]
      decide
    rw [hfil]
    simp
  · rw [hana, analyzeSimulationResults_paths]
    exact hlen
  · rw [hana, analyzeSimulationResults_paths]
    exact fun p hp => (hmem p hp).1
  · rw [hana, analyzeSimulationResults_recommended _ _ _ hne]
    exact selectRecommendedPath_isSome _ _ hne

/-- Counterexample for C2 as stated: the call returns 100 paths, not an
empty path list, and a present recommended path, not an absent one. -/
theorem c2_counterexample :
    (simulateScenario (mkRat 5 10) envNone drawsZero "x" [] 100 true).paths ≠ []
    ∧ (simulateScenario (mkRat 5 10) envNone drawsZero "x" [] 100 true).recommended_path
        ≠ none := by
  have hana : simulateScenario (mkRat 5 10) envNone drawsZero "x" [] 100 true
      = analyzeSimulationResults (mkRat 5 10) "x" (mcPathsList envNone drawsZero [] 100 0 0).1 :=
    rfl
  obtain ⟨hlen, _⟩ := mcPathsList_nil envNone drawsZero 100 0 0
  have hne : (mcPathsList envNone drawsZero [] 100 0 0).1 ≠ [] := by
    intro hc
    rw [hc] at hlen
    simp at hlen
  constructor
  · rw [hana, analyzeSimulationResults_paths]
    exact hne
  · rw [hana, analyzeSimulationResults_recommended _ _ _ hne]
    obtain ⟨i, hi, heq, _, _⟩ := selectRecommendedPath_spec (mkRat 5 10) _ hne
    rw [heq]
    simp

/-- C7 (amended): every produced path's `actions_taken` is a subsequence
of the resolver's ordering with `total_cost`/`total_duration` summing
exactly over it; it is duplicate-free whenever the input action set is
uniquely named, acyclic and dependency-complete (on a cyclic input the
resolver's ordering itself contains duplicates and a deterministic-mode
path can execute an action twice). -/
theorem c7_path_subset_and_totals (rt : ℚ) (env : GenEnv) (draws : ℕ → ℚ) (nm : String)
    (actions : List Action) (n : ℕ) (mc : Bool) :
    ∀ p ∈ (simulateScenario rt env draws nm actions n mc).paths,
      p.actions_taken.Sublist (topologicalSort actions)
      ∧ p.total_cost = sumCost p.actions_taken
      ∧ p.total_duration = sumDuration p.actions_taken
      ∧ (((actionNames actions).Nodup
          ∧ (∀ a ∈ actions, ∀ d ∈ a.dependencies, d ∈ actionNames actions)
          ∧ ∃ rank : String → ℕ, ∀ a ∈ actions, ∀ d ∈ a.dependencies, rank d < rank a.name)
          → p.actions_taken.Nodup) := by
  intro p hp
  rw [simulateScenario_paths] at hp
  have hbase : p.actions_taken.Sublist (topologicalSort actions)
      ∧ p.total_cost = sumCost p.actions_taken
      ∧ p.total_duration = sumDuration p.actions_taken := by
    cases mc
    · obtain ⟨nm', rate, kk, _, rfl⟩ := exploreAllPaths_mem draws actions 0 p (by simpa using hp)
      exact createDeterministicPath_decomp draws nm' (topologicalSort actions) rate kk
    · obtain ⟨j, kk, rfl⟩ := mcPathsList_mem env draws actions n 0 0 p (by simpa using hp)
      exact mc_path_decomp env draws actions j kk
  refine ⟨hbase.1, hbase.2.1, hbase.2.2, ?_⟩
  rintro ⟨hnames, hpres, rank, hrank⟩
  have hperm := topologicalSort_perm actions hpres rank hrank
  have hnames' : (actions.map (fun a => a.name)).Nodup := hnames
  have hnodup : actions.Nodup := List.Nodup.of_map (fun a => a.name) hnames'
  exact hbase.1.nodup (hperm.symm.nodup hnodup)

/-- Witness for C7 at a singleton action set in Monte Carlo mode. -/
theorem c7_witness :
    ∃ p ∈ (simulateScenario (mkRat 5 10) envNone drawsZero "x" [actFree] 1 true).paths,
      p.actions_taken.Sublist (topologicalSort [actFree])
      ∧ p.total_cost = sumCost p.actions_taken
      ∧ p.total_duration = sumDuration p.actions_taken
      ∧ p.actions_taken.Nodup := by
  have hne : (simulateScenario (mkRat 5 10) envNone drawsZero "x" [actFree] 1 true).paths
      ≠ [] := by decide
  have h := c7_path_subset_and_totals (mkRat 5 10) envNone drawsZero "x" [actFree] 1 true
    _ (List.head_mem hne)
  exact ⟨_, List.head_mem hne, h.1, h.2.1, h.2.2.1,
    h.2.2.2 ⟨by decide, by decide, ⟨fun _ => 0, by decide⟩⟩⟩

/-- Counterexample for C7 as stated: in deterministic mode on a cyclic
input the produced optimistic path's `actions_taken` contains the same
action twice. -/
theorem c7_counterexample :
    ((simulateScenario (mkRat 5 10) envNone drawsZero "x" [actCycleA, actCycleB] 0 false).paths.any
      (fun p => !(p.actions_taken.Nodup))) = true := by
  decide

/-- C8 (amended): assuming every action's success probability lies in
[0,1], every action's cost is non-negative, and every effect probability
of the path lies in [0,1], each produced path has probability and risk
score in [0,1]; in Monte Carlo mode the risk score is `0` when the path
has no second-order effects (deterministic-mode paths instead carry
risk score 1 − scenario rate, which is non-zero for the non-optimistic
scenarios although they never carry effects). -/
theorem c8_probability_risk_bounds (rt : ℚ) (env : GenEnv) (draws : ℕ → ℚ) (nm : String)
    (actions : List Action) (n : ℕ) (mc : Bool)
    (hsp : ∀ a ∈ actions, 0 ≤ a.success_probability ∧ a.success_probability ≤ 1)
    (hcost : ∀ a ∈ actions, 0 ≤ a.cost) :
    ∀ p ∈ (simulateScenario rt env draws nm actions n mc).paths,
      (∀ e ∈ p.second_order_effects, 0 ≤ e.probability ∧ e.probability ≤ 1) →
      0 ≤ p.probability ∧ p.probability ≤ 1 ∧ 0 ≤ p.risk_score ∧ p.risk_score ≤ 1
      ∧ (p.second_order_effects = [] → mc = true → p.risk_score = 0) := by
  intro p hp hep
  rw [simulateScenario_paths] at hp
  cases mc
  · obtain ⟨nm', rate, kk, hrate, rfl⟩ :=
      exploreAllPaths_mem draws actions 0 p (by simpa using hp)
    have hrb : 0 ≤ rate ∧ rate ≤ 1 := by
      rcases hrate with h | h | h <;> rw [h] <;> constructor <;> norm_num [Rat.mkRat_eq_div]
    obtain ⟨h0, h1, h2, h3⟩ :=
      det_path_bounds draws nm' (topologicalSort actions) rate kk hrb.1 hrb.2
    exact ⟨h0, h1, h2, h3, fun _ hmc => absurd hmc (by simp)⟩
  · obtain ⟨j, kk, rfl⟩ := mcPathsList_mem env draws actions n 0 0 p (by simpa using hp)
    obtain ⟨h0, h1, h2, h3⟩ :=
      mc_path_bounds env draws actions j kk hsp hcost (fun e he => (hep e he).1)
    exact ⟨h0, h1, h2, h3,
      fun heff _ => mc_path_risk_zero_of_no_effects env draws actions j kk heff⟩

/-- Witness for C8 at a singleton action set in Monte Carlo mode. -/
theorem c8_witness :
    ∃ p ∈ (simulateScenario (mkRat 5 10) envNone drawsZero "x" [actFree] 1 true).paths,
      0 ≤ p.probability ∧ p.probability ≤ 1 ∧ 0 ≤ p.risk_score ∧ p.risk_score ≤ 1 := by
  have hne : (simulateScenario (mkRat 5 10) envNone drawsZero "x" [actFree] 1 true).paths
      ≠ [] := by decide
  have hepAll : ∀ p ∈ (simulateScenario (mkRat 5 10) envNone drawsZero "x" [actFree] 1
      true).paths, ∀ e ∈ p.second_order_effects,
      0 ≤ e.probability ∧ e.probability ≤ 1 := by decide
  have h := c8_probability_risk_bounds (mkRat 5 10) envNone drawsZero "x" [actFree] 1 true
    (by decide) (by decide) _ (List.head_mem hne) (hepAll _ (List.head_mem hne))
  exact ⟨_, List.head_mem hne, h.1, h.2.1, h.2.2.1, h.2.2.2.1⟩

/-- The deterministic sampler's pessimistic path: never any second-order
effects, and a fixed risk score of `1 − 0.5`. -/
lemma det_pessimistic_effects_risk (draws : ℕ → ℚ) (actions : List Action) (k : ℕ) :
    ∃ p ∈ (exploreAllPaths draws actions k).1,
      p.second_order_effects = [] ∧ p.risk_score = 1 - mkRat 5 10 := by
  refine ⟨(createDeterministicPath draws "pessimistic" (topologicalSort actions) (mkRat 5 10)
      ((createDeterministicPath draws "realistic" (topologicalSort actions) (mkRat 8 10)
        ((createDeterministicPath draws "optimistic" (topologicalSort actions) 1 k).2)).2)).1,
    ?_, rfl, rfl⟩
  rw [exploreAllPaths]
  simp

/-- Counterexample for C8 as stated: with success and effect
probabilities all inside [0,1], a Monte Carlo path over a high-cost
action plus a large-negative-cost action gets a risk score of
`-54/125 < 0`; moreover a deterministic path with no second-order
effects carries the non-zero risk score `1/2`. -/
theorem c8_counterexample :
    (∀ a ∈ [actHigh, actNeg], 0 ≤ a.success_probability ∧ a.success_probability ≤ 1)
    ∧ ((simulateScenario (mkRat 5 10) envNone drawsZero "x" [actHigh, actNeg] 1 true).paths.any
        (fun p => p.second_order_effects.all
            (fun e => decide (0 ≤ e.probability) && decide (e.probability ≤ 1))
          && decide (p.risk_score < 0))) = true
    ∧ ∃ p ∈ (simulateScenario (mkRat 5 10) envNone drawsZero "x" [] 0 false).paths,
        p.second_order_effects = [] ∧ p.risk_score ≠ 0 := by
  refine ⟨by decide, ?_, ?_⟩
  · simp [simulateScenario, mcPathsList, runMonteCarloSimulation, topologicalSort, topoAux,
      eraseAlias, isReadyA, actionNames, mcStep, simulateSecondOrderEffects, determineOutcome,
      calculatePathProbability, calculateRiskScore, analyzeSimulationResults, synthBudgetEffect,
      actHigh, actNeg, envNone, drawsZero]
    norm_num [Rat.mkRat_eq_div, abs_of_nonpos, min_def]
  · obtain ⟨p, hp, heff, hrisk⟩ := det_pessimistic_effects_risk drawsZero [] 0
    refine ⟨p, ?_, heff, ?_⟩
    · rw [simulateScenario_paths]
      simpa using hp
    · rw [hrisk]
      norm_num [Rat.mkRat_eq_div]

end S3
